import Mathlib

/-!
Verification of the html-to-clean-text core: a shallow embedding of the
token estimator, break-point search and chunker from src/chunker.ts, and a
spec-modelled element consolidation for the cleaner.  Texts are lists of
characters; the JavaScript floating-point arithmetic (Math.ceil, Math.floor,
fractional thresholds) is modelled by exact rational arithmetic.
-/

namespace Chunker

/-- Whitespace predicate mirroring the JavaScript regular-expression class
for white space (the set matched by a backslash-s pattern and removed by
String.prototype.trim): ASCII spacing characters, no-break space, the
Unicode space separators, line and paragraph separators, and the BOM. -/
def isSpaceJS (c : Char) : Bool :=
  let n := c.toNat
  (n = 0x20) || (0x9 ≤ n && n ≤ 0xD) || (n = 0xA0) || (n = 0x1680) ||
  (0x2000 ≤ n && n ≤ 0x200A) || (n = 0x2028) || (n = 0x2029) ||
  (n = 0x202F) || (n = 0x205F) || (n = 0x3000) || (n = 0xFEFF)

/-- Word-character predicate mirroring the JavaScript word class (letters,
digits, underscore). -/
def isWordChar (c : Char) : Bool :=
  (('a' ≤ c && c ≤ 'z') || ('A' ≤ c && c ≤ 'Z') || ('0' ≤ c && c ≤ '9') || c = '_')

/-- Characters counted by the special-character pattern of estimateTokens:
neither word characters nor whitespace. -/
def isSpecial (c : Char) : Bool := !(isWordChar c) && !(isSpaceJS c)

/-- Strip trailing elements satisfying p, keeping everything up to the last
element that does not satisfy p. -/
def rstrip {α : Type} (p : α → Bool) : List α → List α
  | [] => []
  | c :: t =>
    match rstrip p t with
    | [] => if p c then [] else [c]
    | d :: r => c :: d :: r

/-- Translation of String.prototype.trim: drop whitespace from both ends. -/
def trim (l : List Char) : List Char := rstrip isSpaceJS (l.dropWhile isSpaceJS)

/-- Accumulator-based splitting on runs of separator characters with empty
pieces discarded; cur holds the current piece in reverse. -/
def runSplitAux (p : Char → Bool) : List Char → List Char → List (List Char)
  | cur, [] => if cur.isEmpty then [] else [cur.reverse]
  | cur, c :: t =>
    if p c then
      (if cur.isEmpty then runSplitAux p [] t else cur.reverse :: runSplitAux p [] t)
    else runSplitAux p (c :: cur) t

/-- Split a text on runs of characters satisfying p, discarding empty
pieces; with p the whitespace class this is the composite of the source's
split on a whitespace-run pattern followed by the nonempty filter. -/
def runSplit (p : Char → Bool) (l : List Char) : List (List Char) := runSplitAux p [] l

/-- Words of a text: split on whitespace runs, empty tokens discarded,
as in estimateTokens. -/
def wordsOf (l : List Char) : List (List Char) := runSplit isSpaceJS l

/-- Count of special characters, the length of the match list of the
special-character pattern in estimateTokens. -/
def specialCount (l : List Char) : Nat := l.countP isSpecial

/-- Translation of estimateTokens: Math.ceil of word count times 1.3 plus
special-character count times 0.5, written in exact integer arithmetic so
that it evaluates inside the kernel; the literal rational-ceiling form is
estimateTokensR below, and the two are proved equal. -/
def estimateTokens (l : List Char) : ℤ :=
  (((13 * (wordsOf l).length + 5 * specialCount l + 9) / 10 : ℕ) : ℤ)

/-- The token estimate as literally written in the source: the ceiling of
word count times 1.3 plus special-character count times 0.5. -/
def estimateTokensR (l : List Char) : ℤ :=
  ⌈((wordsOf l).length : ℚ) * (13 / 10 : ℚ) + (specialCount l : ℚ) * (1 / 2 : ℚ)⌉

/-- State machine counting maximal runs of characters not satisfying p; the
boolean state records whether the previous character was inside a run. -/
def cwg (p : Char → Bool) : Bool → List Char → Nat
  | _, [] => 0
  | inRun, c :: t =>
    if p c then cwg p false t else (if inRun then 0 else 1) + cwg p true t

/-- Final state of the run-counting machine after consuming a text. -/
def endSt (p : Char → Bool) : Bool → List Char → Bool
  | b, [] => b
  | _, c :: t => endSt p (!(p c)) t

/-- List-prefix test by character comparison. -/
def isPrefixL : List Char → List Char → Bool
  | [], _ => true
  | _ :: _, [] => false
  | a :: s, b :: t => a = b && isPrefixL s t

/-- Whether sub occurs in text starting at index i. -/
def matchesAt (sub text : List Char) (i : Nat) : Bool := isPrefixL sub (text.drop i)

/-- Translation of String.prototype.lastIndexOf with a fromIndex: the
greatest start index at most i where sub occurs, if any. -/
def lastIndexFrom (sub text : List Char) : Nat → Option Nat
  | 0 => if matchesAt sub text 0 then some 0 else none
  | i + 1 => if matchesAt sub text (i + 1) then some (i + 1) else lastIndexFrom sub text i

/-- The sentence enders probed by findBreakPoint, in source order. -/
def sentenceEnders : List (List Char) :=
  [['.', ' '], ['!', ' '], ['?', ' '], ['.', '\n'], ['!', '\n'], ['?', '\n']]

/-- Translation of the sentence-ender loop of findBreakPoint: fold over the
enders keeping the best break point (initially -1); a candidate at position
p replaces the best b when p is greater than b and greater than half of
maxPos, and then contributes p plus the ender length. -/
def enderFold (text : List Char) (maxPos : Nat) : List (List Char) → ℤ → ℤ
  | [], best => best
  | e :: rest, best =>
    match lastIndexFrom e text maxPos with
    | some p =>
      if best < (p : ℤ) ∧ maxPos < 2 * p then
        enderFold text maxPos rest ((p : ℤ) + e.length)
      else enderFold text maxPos rest best
    | none => enderFold text maxPos rest best

/-- Paragraph-break stage of findBreakPoint: last double newline at or
before maxPos, accepted when its position exceeds half of maxPos. -/
def stageParagraph (text : List Char) (maxPos : Nat) : Option Nat :=
  match lastIndexFrom ['\n', '\n'] text maxPos with
  | some p => if maxPos < 2 * p then some (p + 2) else none
  | none => none

/-- Line-break stage of findBreakPoint: last newline at or before maxPos,
accepted when its position exceeds six tenths of maxPos. -/
def stageLine (text : List Char) (maxPos : Nat) : Option Nat :=
  match lastIndexFrom ['\n'] text maxPos with
  | some p => if 3 * maxPos < 5 * p then some (p + 1) else none
  | none => none

/-- Sentence-ender stage of findBreakPoint: the fold result when positive. -/
def stageEnders (text : List Char) (maxPos : Nat) : Option Nat :=
  let b := enderFold text maxPos sentenceEnders (-1)
  if 0 < b then some b.toNat else none

/-- Word-boundary stage of findBreakPoint: last space at or before maxPos,
accepted when its position exceeds seven tenths of maxPos. -/
def stageSpace (text : List Char) (maxPos : Nat) : Option Nat :=
  match lastIndexFrom [' '] text maxPos with
  | some p => if 7 * maxPos < 10 * p then some (p + 1) else none
  | none => none

/-- Translation of findBreakPoint: the four stages in order, falling back
to a hard cut at maxPos. -/
def findBreakPoint (text : List Char) (maxPos : Nat) : Nat :=
  match stageParagraph text maxPos with
  | some r => r
  | none =>
    match stageLine text maxPos with
    | some r => r
    | none =>
      match stageEnders text maxPos with
      | some r => r
      | none =>
        match stageSpace text maxPos with
        | some r => r
        | none => maxPos

/-- A chunk of the output envelope: sequence number, text and estimated
token count. -/
structure ContentChunk where
  chunk : Nat
  text : List Char
  approx_tokens : ℤ
deriving DecidableEq

/-- Translation of the while loop of chunkText, with explicit fuel; none
models a loop that does not terminate within the given fuel. -/
def chunkLoop (maxChars : Nat) : Nat → List Char → Nat → Option (List ContentChunk)
  | 0, _, _ => none
  | fuel + 1, remaining, num =>
    if remaining = [] then some []
    else if remaining.length ≤ maxChars then
      some [⟨num, remaining, estimateTokens remaining⟩]
    else
      let bp := findBreakPoint remaining maxChars
      let piece := trim (remaining.take bp)
      let rest := trim (remaining.drop bp)
      if piece = [] then chunkLoop maxChars fuel rest num
      else (chunkLoop maxChars fuel rest (num + 1)).map
        (fun l => ⟨num, piece, estimateTokens piece⟩ :: l)

/-- Translation of chunkText: trim, return empty for empty input, a single
chunk when the total estimate is within 1.2 times the target (the
comparison total le targetTokens times 1.2 in exact integer form), else
split with the break-point search; targetChars is the floor of targetTokens
times charsPerToken (equal to the integer quotient of targetTokens times
length by total) and maxChars the floor of targetChars times 1.2; fuel one
more than the text length.  The floor formulations are proved equal to the
rational ones in targetChars_eq_floor and maxChars_eq_floor. -/
def chunkText (text : List Char) (targetTokens : Nat) : Option (List ContentChunk) :=
  let norm := trim text
  if norm = [] then some []
  else
    let total := estimateTokens norm
    if 5 * total ≤ 6 * (targetTokens : ℤ) then some [⟨1, norm, total⟩]
    else
      let targetChars : Nat := (((targetTokens : ℤ) * norm.length) / total).toNat
      let maxChars : Nat := 6 * targetChars / 5
      chunkLoop maxChars (norm.length + 1) norm 1

/-- Concatenation of the text fields of a chunk sequence. -/
def concatTexts : List ContentChunk → List Char
  | [] => []
  | c :: t => c.text ++ concatTexts t

/-- The non-whitespace characters of a text, in order. -/
def nonWsOf (l : List Char) : List Char := l.filter (fun c => !isSpaceJS c)

/-- Join a list of texts with a single separating space. -/
def joinSp : List (List Char) → List Char
  | [] => []
  | [x] => x
  | x :: y :: t => x ++ ' ' :: joinSp (y :: t)

/-- Whitespace normalization: collapse every whitespace run to one space
and trim the ends. -/
def normalizeWs (l : List Char) : List Char := joinSp (wordsOf l)

/-- Check that a chunk sequence is numbered consecutively from n and that
no chunk has empty text. -/
def numberingOk : Nat → List ContentChunk → Bool
  | _, [] => true
  | n, c :: t => decide (c.chunk = n) && decide (c.text ≠ []) && numberingOk (n + 1) t

/-- Check that every chunk reports the estimator applied to its own text. -/
def tokensOk (l : List ContentChunk) : Bool :=
  l.all (fun c => decide (c.approx_tokens = estimateTokens c.text))

/-- Check that every chunk text is its own trim. -/
def trimmedOk (l : List ContentChunk) : Bool :=
  l.all (fun c => decide (trim c.text = c.text))

/-- Claim-side sentence-ender candidates: for each ender, its last
occurrence at or before maxPos when the position exceeds half of maxPos,
paired with the ender length. -/
def qualifyingEnders (text : List Char) (maxPos : Nat) : List (Nat × Nat) :=
  sentenceEnders.filterMap (fun e =>
    match lastIndexFrom e text maxPos with
    | some p => if maxPos < 2 * p then some (p, e.length) else none
    | none => none)

/-- Claim-side choice rule: the rightmost (greatest-position) candidate. -/
def rightmostChoice : List (Nat × Nat) → Option (Nat × Nat) :=
  List.foldl (fun acc c =>
    match acc with
    | none => some c
    | some b => if b.1 < c.1 then some c else some b) none

/-- Word-boundary stage as the claim words it, with rational threshold. -/
def claimSpaceStage (text : List Char) (maxPos : Nat) : Nat :=
  match lastIndexFrom [' '] text maxPos with
  | some p => if 7 * maxPos < 10 * p then p + 1 else maxPos
  | none => maxPos

/-- Sentence-ender stage as the claim words it: the rightmost qualifying
candidate wins, breaking at its position plus the ender length. -/
def claimEnderStage (text : List Char) (maxPos : Nat) : Nat :=
  match rightmostChoice (qualifyingEnders text maxPos) with
  | some c => c.1 + c.2
  | none => claimSpaceStage text maxPos

/-- Line-break stage as the claim words it, with rational threshold. -/
def claimLineStage (text : List Char) (maxPos : Nat) : Nat :=
  match lastIndexFrom ['\n'] text maxPos with
  | some p =>
    if 3 * maxPos < 5 * p then p + 1 else claimEnderStage text maxPos
  | none => claimEnderStage text maxPos

/-- The break-point search as the claim words it: stages with rational
thresholds, the sentence-ender stage picking the rightmost qualifying
candidate and breaking at its position plus the ender length. -/
def findBreakPointClaim (text : List Char) (maxPos : Nat) : Nat :=
  match lastIndexFrom ['\n', '\n'] text maxPos with
  | some p =>
    if maxPos < 2 * p then p + 2 else claimLineStage text maxPos
  | none => claimLineStage text maxPos

/-- One step of the amended-claim sentence-ender scan: a candidate at
position p replaces the current best break point b only when p strictly
exceeds b and exceeds half of maxPos, and then the best break point
becomes p plus the ender length. -/
def enderStepSpec (text : List Char) (maxPos : Nat) (best : Option Nat) (e : List Char) :
    Option Nat :=
  match lastIndexFrom e text maxPos with
  | some p =>
    match best with
    | none => if maxPos < 2 * p then some (p + e.length) else none
    | some b =>
      if b < p ∧ maxPos < 2 * p then some (p + e.length) else some b
  | none => best

/-- Amended-claim sentence-ender scan: fold the step over the enders in
list order starting from no candidate. -/
def enderScanSpec (text : List Char) (maxPos : Nat) : Option Nat :=
  sentenceEnders.foldl (enderStepSpec text maxPos) none

/-- Sentence-ender stage as the amended claim words it: the order-sensitive
scan of enderScanSpec, falling through to the word-boundary stage. -/
def specEnderStage (text : List Char) (maxPos : Nat) : Nat :=
  match enderScanSpec text maxPos with
  | some b => b
  | none => claimSpaceStage text maxPos

/-- Line-break stage of the amended break-point description. -/
def specLineStage (text : List Char) (maxPos : Nat) : Nat :=
  match lastIndexFrom ['\n'] text maxPos with
  | some p =>
    if 3 * maxPos < 5 * p then p + 1 else specEnderStage text maxPos
  | none => specEnderStage text maxPos

/-- The break-point search as the amended claim words it: identical to the
claim version except that the sentence-ender stage uses the order-sensitive
scan of enderScanSpec. -/
def findBreakPointSpec (text : List Char) (maxPos : Nat) : Nat :=
  match lastIndexFrom ['\n', '\n'] text maxPos with
  | some p =>
    if maxPos < 2 * p then p + 2 else specLineStage text maxPos
  | none => specLineStage text maxPos

/-- Kinds of extracted elements. -/
inductive ElemKind where
  | txt
  | heading
  | paragraph
  | listItem
  | blockquote
  | code
  | brk
deriving DecidableEq

/-- List kinds for list items. -/
inductive ListKind where
  | ordered
  | unordered
deriving DecidableEq

/-- An extracted content element: kind, normalized content, optional
heading level and optional list type. -/
structure ExtractedElement where
  kind : ElemKind
  content : List Char
  level : Option Nat := none
  listType : Option ListKind := none
deriving DecidableEq

/-- Whether an element is a break element. -/
def isBrk (e : ExtractedElement) : Bool := decide (e.kind = ElemKind.brk)

/-- Whether an element is a plain text element. -/
def isTxt (e : ExtractedElement) : Bool := decide (e.kind = ElemKind.txt)

/-- Merge two consecutive text elements by concatenation with a single
separating space. -/
def mergeElem (a b : ExtractedElement) : ExtractedElement :=
  ⟨ElemKind.txt, a.content ++ ' ' :: b.content, none, none⟩

/-- Modelled from the spec: consolidation step, drop elements with empty
content unless they are break elements. -/
def dropEmpties (l : List ExtractedElement) : List ExtractedElement :=
  l.filter (fun e => isBrk e || !e.content.isEmpty)

/-- Modelled from the spec: consolidation step, collapse consecutive break
elements to one. -/
def collapseBreaks : List ExtractedElement → List ExtractedElement
  | [] => []
  | [a] => [a]
  | a :: b :: rest =>
    if isBrk a && isBrk b then collapseBreaks (a :: rest)
    else a :: collapseBreaks (b :: rest)
termination_by l => l.length
decreasing_by
  · simp
  · simp

/-- Modelled from the spec: consolidation step, merge consecutive text
elements by concatenation with a single separating space. -/
def mergeTexts : List ExtractedElement → List ExtractedElement
  | [] => []
  | [a] => [a]
  | a :: b :: rest =>
    if isTxt a && isTxt b then mergeTexts (mergeElem a b :: rest)
    else a :: mergeTexts (b :: rest)
termination_by l => l.length
decreasing_by
  · simp
  · simp

/-- Modelled from the spec: consolidation step, strip leading and trailing
break elements. -/
def stripBreaks (l : List ExtractedElement) : List ExtractedElement :=
  rstrip isBrk (l.dropWhile isBrk)

/-- Modelled from the spec: post-processing of the raw emitted element
sequence, in the spec's order. -/
def consolidate (l : List ExtractedElement) : List ExtractedElement :=
  stripBreaks (mergeTexts (collapseBreaks (dropEmpties l)))

/-- Modelled from the spec: extraction fallback, split the raw body text on
runs of newlines, keep lines longer than ten characters after trim, and
emit each as a paragraph. -/
def fallbackParagraphs (bodyText : List Char) : List ExtractedElement :=
  (((runSplit (fun c => c == '\n') bodyText).map trim).filter
      (fun s => decide (10 < s.length))).map
    (fun s => ⟨ElemKind.paragraph, s, none, none⟩)

/-- Modelled from the spec: parseAndClean from cleaner.ts, whose
implementation is not in the sources; the traversal's raw emitted sequence
for an HTML input is abstracted as the input list raw, and bodyText stands
for the document body's raw text content.  The raw sequence is consolidated;
when that is empty and the trimmed body text exceeds fifty characters, the
fallback paragraphs are produced instead. -/
def parseAndClean (raw : List ExtractedElement) (bodyText : List Char) : List ExtractedElement :=
  let out := consolidate raw
  if out.isEmpty then
    (if 50 < (trim bodyText).length then fallbackParagraphs bodyText else [])
  else out

/-- Adjacent-pair check: r must hold of every consecutive pair. -/
def adjOk {α : Type} (r : α → α → Bool) : List α → Bool
  | [] => true
  | [_] => true
  | a :: b :: t => r a b && adjOk r (b :: t)

/-- Pair condition forbidding two consecutive break elements. -/
def noBB (a b : ExtractedElement) : Bool := !(isBrk a && isBrk b)

/-- Pair condition forbidding two consecutive text elements. -/
def noTT (a b : ExtractedElement) : Bool := !(isTxt a && isTxt b)

/-- Pair condition of the extractor invariant: no two consecutive breaks
and no two consecutive text elements. -/
def pairOk (a b : ExtractedElement) : Bool := noBB a b && noTT a b

/-- Boundary condition of the extractor invariant: no leading and no
trailing break element. -/
def noBoundaryBrk (l : List ExtractedElement) : Bool :=
  l.head?.all (fun e => !isBrk e) && l.getLast?.all (fun e => !isBrk e)

/-- Unfolding equation of rstrip on a cons cell. -/
theorem rstrip_cons_eq {α : Type} (p : α → Bool) (c : α) (t : List α) :
    rstrip p (c :: t) =
      match rstrip p t with
      | [] => if p c = true then [] else [c]
      | d :: r => c :: d :: r := rfl

/-- Decomposition of rstrip: the input is the result followed by a suffix
of elements satisfying p. -/
theorem rstrip_decomp {α : Type} (p : α → Bool) (l : List α) :
    ∃ suf, l = rstrip p l ++ suf ∧ ∀ c ∈ suf, p c = true := by
  induction l with
  | nil => exact ⟨[], rfl, by simp⟩
  | cons c t ih =>
    obtain ⟨suf, ht, hall⟩ := ih
    cases hr : rstrip p t with
    | nil =>
      rw [hr] at ht
      simp only [List.nil_append] at ht
      by_cases hc : p c = true
      · refine ⟨c :: t, ?_, ?_⟩
        · simp [rstrip_cons_eq, hr, hc]
        · intro x hx
          rcases List.mem_cons.mp hx with h | h
          · subst h; exact hc
          · exact hall x (ht ▸ h)
      · refine ⟨suf, ?_, hall⟩
        rw [rstrip_cons_eq, hr]
        simp [hc]
        exact ht
    | cons d r =>
      refine ⟨suf, ?_, hall⟩
      rw [rstrip_cons_eq, hr]
      simp
      rw [hr] at ht
      exact ht

/-- The result of rstrip on a cons is empty or keeps the same head. -/
theorem rstrip_cons_head {α : Type} (p : α → Bool) (c : α) (t : List α) :
    rstrip p (c :: t) = [] ∨ ∃ r, rstrip p (c :: t) = c :: r := by
  cases hr : rstrip p t with
  | nil =>
    by_cases hc : p c = true
    · left; simp [rstrip, hr, hc]
    · right; exact ⟨[], by simp [rstrip, hr, hc]⟩
  | cons d r => right; exact ⟨d :: r, by simp [rstrip, hr]⟩

/-- rstrip is the identity when the last element does not satisfy p. -/
theorem rstrip_eq_self_of_getLast {α : Type} (p : α → Bool) :
    ∀ l : List α, (∀ e, l.getLast? = some e → p e = false) → rstrip p l = l := by
  intro l
  induction l with
  | nil => intro _; rfl
  | cons c t ih =>
    intro h
    cases t with
    | nil =>
      have hc : p c = false := h c (by simp)
      simp [rstrip_cons_eq, rstrip, hc]
    | cons d r =>
      have ht : rstrip p (d :: r) = d :: r :=
        ih (fun e he => h e (by rw [List.getLast?_cons_cons]; exact he))
      rw [rstrip_cons_eq, ht]

/-- The last element surviving rstrip does not satisfy p. -/
theorem rstrip_getLast {α : Type} (p : α → Bool) :
    ∀ (l : List α) (e : α), (rstrip p l).getLast? = some e → p e = false := by
  intro l
  induction l with
  | nil => intro e he; simp [rstrip] at he
  | cons c t ih =>
    intro e he
    cases hr : rstrip p t with
    | nil =>
      rw [rstrip_cons_eq, hr] at he
      by_cases hc : p c = true
      · simp [hc] at he
      · simp [hc] at he
        rw [← he]
        simpa using hc
    | cons d r =>
      rw [rstrip_cons_eq, hr] at he
      rw [List.getLast?_cons_cons] at he
      exact ih e (hr ▸ he)

/-- Idempotence of rstrip. -/
theorem rstrip_idem {α : Type} (p : α → Bool) (l : List α) :
    rstrip p (rstrip p l) = rstrip p l :=
  rstrip_eq_self_of_getLast p (rstrip p l) (rstrip_getLast p l)

/-- The head surviving dropWhile does not satisfy the predicate. -/
theorem dropWhile_head_not {α : Type} (p : α → Bool) (l : List α) :
    ∀ e, (l.dropWhile p).head? = some e → p e = false := by
  induction l with
  | nil => simp
  | cons c t ih =>
    by_cases hc : p c = true
    · simpa [List.dropWhile_cons, hc] using ih
    · intro e he
      simp [List.dropWhile_cons, hc] at he
      rw [← he]
      simpa using hc

/-- dropWhile is the identity when the head does not satisfy p. -/
theorem dropWhile_eq_self_of_head {α : Type} (p : α → Bool) (l : List α)
    (h : ∀ e, l.head? = some e → p e = false) : l.dropWhile p = l := by
  cases l with
  | nil => rfl
  | cons c t => simp [List.dropWhile_cons, h c rfl]

/-- Decomposition of trim: the input is a whitespace prefix, the trimmed
text, and a whitespace suffix. -/
theorem trim_decomp (l : List Char) :
    ∃ pre suf, l = pre ++ trim l ++ suf ∧ (∀ c ∈ pre, isSpaceJS c = true) ∧
      (∀ c ∈ suf, isSpaceJS c = true) := by
  obtain ⟨suf, hm, hall⟩ := rstrip_decomp isSpaceJS (l.dropWhile isSpaceJS)
  refine ⟨l.takeWhile isSpaceJS, suf, ?_, ?_, hall⟩
  · conv_lhs => rw [← List.takeWhile_append_dropWhile (p := isSpaceJS) (l := l)]
    rw [hm]
    simp [trim]
  · intro c hc
    exact List.mem_takeWhile_imp hc

/-- Idempotence of trim. -/
theorem trim_idem (l : List Char) : trim (trim l) = trim l := by
  unfold trim
  cases hm : l.dropWhile isSpaceJS with
  | nil => simp [rstrip]
  | cons c t =>
    have hc : isSpaceJS c = false := dropWhile_head_not isSpaceJS l c (by rw [hm]; rfl)
    rcases rstrip_cons_head isSpaceJS c t with h | ⟨r, h⟩
    · rw [h]; simp [rstrip]
    · rw [h, dropWhile_eq_self_of_head isSpaceJS (c :: r)
        (by intro e he; injection he with h2; rw [← h2]; exact hc), ← h, rstrip_idem]

/-- Trimming never lengthens a text. -/
theorem trim_length_le (l : List Char) : (trim l).length ≤ l.length := by
  obtain ⟨pre, suf, h, -, -⟩ := trim_decomp l
  conv_rhs => rw [h]
  simp
  omega

/-- The head of a trimmed text is not whitespace. -/
theorem trim_head_not_space (l : List Char) :
    ∀ e, (trim l).head? = some e → isSpaceJS e = false := by
  unfold trim
  intro e he
  cases hm : l.dropWhile isSpaceJS with
  | nil => rw [hm] at he; simp [rstrip] at he
  | cons c t =>
    rw [hm] at he
    rcases rstrip_cons_head isSpaceJS c t with h | ⟨r, h⟩
    · rw [h] at he; simp at he
    · rw [h] at he
      injection he with h2
      rw [← h2]
      exact dropWhile_head_not isSpaceJS l c (by rw [hm]; rfl)

/-- The run-counting machine splits over an append at the carried state. -/
theorem cwg_append (p : Char → Bool) (y : List Char) :
    ∀ (x : List Char) (b : Bool), cwg p b (x ++ y) = cwg p b x + cwg p (endSt p b x) y := by
  intro x
  induction x with
  | nil => intro b; simp [cwg, endSt]
  | cons c t ih =>
    intro b
    by_cases hc : p c = true
    · simp [cwg, endSt, hc, ih]
    · rw [Bool.not_eq_true] at hc
      simp [cwg, endSt, hc, ih]
      omega

/-- The run-counting machine yields zero on all-separator input. -/
theorem cwg_all_zero (p : Char → Bool) :
    ∀ (x : List Char) (b : Bool), (∀ c ∈ x, p c = true) → cwg p b x = 0 := by
  intro x
  induction x with
  | nil => intro b _; rfl
  | cons c t ih =>
    intro b h
    have hc := h c (by simp)
    simp [cwg, hc]
    exact ih false (fun d hd => h d (by simp [hd]))

/-- The machine state is reset by an all-separator segment. -/
theorem endSt_all_false (p : Char → Bool) :
    ∀ (x : List Char), (∀ c ∈ x, p c = true) → endSt p false x = false := by
  intro x
  induction x with
  | nil => intro _; rfl
  | cons c t ih =>
    intro h
    have hc := h c (by simp)
    simp [endSt, hc]
    exact ih (fun d hd => h d (by simp [hd]))

/-- The run count is at most the text length. -/
theorem cwg_le_length (p : Char → Bool) :
    ∀ (x : List Char) (b : Bool), cwg p b x ≤ x.length := by
  intro x
  induction x with
  | nil => intro b; simp [cwg]
  | cons c t ih =>
    intro b
    by_cases hc : p c = true
    · simp [cwg, hc]
      exact Nat.le_succ_of_le (ih false)
    · rw [Bool.not_eq_true] at hc
      simp [cwg, hc]
      have := ih true
      cases b <;> simp <;> omega

/-- Length of the accumulator-based split in terms of the run counter. -/
theorem runSplitAux_length (p : Char → Bool) :
    ∀ (l cur : List Char),
      (runSplitAux p cur l).length = if cur.isEmpty then cwg p false l else 1 + cwg p true l := by
  intro l
  induction l with
  | nil => intro cur; cases cur <;> simp [runSplitAux, cwg]
  | cons c t ih =>
    intro cur
    by_cases hc : p c = true
    · cases cur with
      | nil => simp [runSplitAux, hc, cwg, ih []]
      | cons a b =>
        simp [runSplitAux, hc, cwg, ih []]
        omega
    · rw [Bool.not_eq_true] at hc
      cases cur with
      | nil => simp [runSplitAux, hc, cwg, ih [c]]
      | cons a b => simp [runSplitAux, hc, cwg, ih (c :: a :: b)]

/-- The number of words is the number of maximal non-whitespace runs. -/
theorem wordsOf_length (l : List Char) : (wordsOf l).length = cwg isSpaceJS false l := by
  simpa [wordsOf, runSplit] using runSplitAux_length isSpaceJS l []

/-- countP vanishes on a list where the predicate never holds. -/
theorem countP_zero_of_all {α : Type} (p : α → Bool) :
    ∀ x : List α, (∀ c ∈ x, p c = false) → x.countP p = 0 := by
  intro x
  induction x with
  | nil => intro _; simp
  | cons c t ih =>
    intro hx
    rw [List.countP_cons, if_neg (by simp [hx c (by simp)])]
    simpa using ih (fun d hd => hx d (by simp [hd]))

/-- filter yields nil on a list where the predicate never holds. -/
theorem filter_nil_of_all {α : Type} (p : α → Bool) :
    ∀ x : List α, (∀ c ∈ x, p c = false) → x.filter p = [] := by
  intro x
  induction x with
  | nil => intro _; simp
  | cons c t ih =>
    intro hx
    rw [List.filter_cons, if_neg (by simp [hx c (by simp)])]
    exact ih (fun d hd => hx d (by simp [hd]))

/-- Whitespace characters are not special characters. -/
theorem isSpecial_of_space {c : Char} (h : isSpaceJS c = true) : isSpecial c = false := by
  simp [isSpecial, h]

/-- The special-character count is invariant under trimming. -/
theorem specialCount_trim (l : List Char) : specialCount (trim l) = specialCount l := by
  obtain ⟨pre, suf, h, hpre, hsuf⟩ := trim_decomp l
  conv_rhs => rw [h]
  simp only [specialCount, List.countP_append]
  rw [countP_zero_of_all isSpecial pre (fun c hc => isSpecial_of_space (hpre c hc)),
      countP_zero_of_all isSpecial suf (fun c hc => isSpecial_of_space (hsuf c hc))]
  omega

/-- The word count is invariant under trimming. -/
theorem cwg_trim (l : List Char) :
    cwg isSpaceJS false (trim l) = cwg isSpaceJS false l := by
  obtain ⟨pre, suf, h, hpre, hsuf⟩ := trim_decomp l
  conv_rhs => rw [h]
  rw [cwg_append, cwg_all_zero isSpaceJS suf _ hsuf, cwg_append,
      cwg_all_zero isSpaceJS pre false hpre, endSt_all_false isSpaceJS pre hpre]
  omega

/-- The token estimate is invariant under trimming. -/
theorem estimateTokens_trim (l : List Char) : estimateTokens (trim l) = estimateTokens l := by
  unfold estimateTokens
  rw [wordsOf_length, wordsOf_length, cwg_trim, specialCount_trim]

/-- Closed form of the rational ceiling used by the estimator. -/
theorem ceil_frac_eq (W S : ℕ) :
    ⌈(W : ℚ) * (13 / 10) + (S : ℚ) * (1 / 2)⌉ = (((13 * W + 5 * S + 9) / 10 : ℕ) : ℤ) := by
  have h0 : (W : ℚ) * (13 / 10) + (S : ℚ) * (1 / 2) = ((13 * W + 5 * S : ℕ) : ℚ) / 10 := by
    push_cast
    ring
  rw [h0]
  set a : ℕ := 13 * W + 5 * S with ha
  set d : ℕ := (a + 9) / 10 with hd
  rw [Int.ceil_eq_iff]
  have hb1 : a ≤ 10 * d := by omega
  have hb2 : 10 * d ≤ a + 9 := by omega
  constructor
  · rw [lt_div_iff₀ (by norm_num : (0:ℚ) < 10)]
    have hq : ((10 * d : ℕ) : ℚ) ≤ ((a : ℕ) : ℚ) + 9 := by exact_mod_cast hb2
    push_cast at hq ⊢
    linarith
  · rw [div_le_iff₀ (by norm_num : (0:ℚ) < 10)]
    have hq : ((a : ℕ) : ℚ) ≤ ((10 * d : ℕ) : ℚ) := by exact_mod_cast hb1
    push_cast at hq ⊢
    linarith

/-- The estimator as integer arithmetic on the run-counted words. -/
theorem estimateTokens_closed (l : List Char) :
    estimateTokens l =
      (((13 * cwg isSpaceJS false l + 5 * specialCount l + 9) / 10 : ℕ) : ℤ) := by
  unfold estimateTokens
  rw [wordsOf_length]

/-- The integer estimator equals the literal rational-ceiling form of the
source. -/
theorem estimateTokens_eq_ceil (l : List Char) : estimateTokens l = estimateTokensR l :=
  (ceil_frac_eq (wordsOf l).length (specialCount l)).symm

/-- Floor of an integer quotient over the rationals is integer division. -/
theorem floor_int_div (a b : ℤ) (hb : 0 < b) : ⌊(a : ℚ) / (b : ℚ)⌋ = a / b := by
  have h1 := Int.ediv_add_emod a b
  have h2 := Int.emod_nonneg a (ne_of_gt hb)
  have h3 := Int.emod_lt_of_pos a hb
  have hbq : (0 : ℚ) < (b : ℚ) := by exact_mod_cast hb
  rw [Int.floor_eq_iff]
  constructor
  · rw [le_div_iff₀ hbq]
    have h4 : (a / b) * b ≤ a := by nlinarith
    exact_mod_cast h4
  · rw [div_lt_iff₀ hbq]
    have h5 : a < (a / b + 1) * b := by nlinarith
    exact_mod_cast h5

/-- The integer targetChars of chunkText equals the floor of targetTokens
times charsPerToken as the source computes it over the reals. -/
theorem targetChars_eq_floor (t L : ℕ) (T : ℤ) (hT : 0 < T) :
    (((t : ℤ) * L) / T).toNat = (⌊(t : ℚ) * ((L : ℚ) / (T : ℚ))⌋).toNat := by
  rw [← mul_div_assoc,
      show ((t : ℚ) * (L : ℚ)) = (((t : ℤ) * L : ℤ) : ℚ) by push_cast; ring,
      floor_int_div _ _ hT]

/-- The integer maxChars of chunkText equals the floor of targetChars times
1.2 as the source computes it over the reals. -/
theorem maxChars_eq_floor (tc : ℕ) : 6 * tc / 5 = (⌊(tc : ℚ) * (12 / 10 : ℚ)⌋).toNat := by
  rw [show ((tc : ℚ) * (12 / 10 : ℚ)) = (((6 * tc : ℕ) : ℤ) : ℚ) / ((5 : ℤ) : ℚ) by
        push_cast; ring,
      floor_int_div _ _ (by norm_num),
      show ((6 * tc : ℕ) : ℤ) / (5 : ℤ) = ((6 * tc / 5 : ℕ) : ℤ) by
        rw [Int.ofNat_ediv]; norm_num]
  rw [Int.toNat_natCast]

/-- The estimator is non-negative. -/
theorem estimateTokens_nonneg (l : List Char) : 0 ≤ estimateTokens l := by
  rw [estimateTokens_closed]
  exact Int.natCast_nonneg _

/-- The estimator yields zero on the empty text. -/
theorem estimateTokens_nil : estimateTokens [] = 0 := rfl

/-- A text whose first character is not whitespace estimates to at least
one token. -/
theorem estimateTokens_pos (c : Char) (t : List Char) (hc : isSpaceJS c = false) :
    1 ≤ estimateTokens (c :: t) := by
  rw [estimateTokens_closed]
  have h1 : cwg isSpaceJS false (c :: t) = 1 + cwg isSpaceJS true t := by
    simp [cwg, hc]
  have : 1 ≤ (13 * cwg isSpaceJS false (c :: t) + 5 * specialCount (c :: t) + 9) / 10 := by
    rw [h1]
    omega
  exact_mod_cast this

/-- The estimator is bounded by twice the text length. -/
theorem estimateTokens_le (l : List Char) : estimateTokens l ≤ 2 * l.length := by
  rw [estimateTokens_closed]
  have hW : cwg isSpaceJS false l ≤ l.length := cwg_le_length isSpaceJS l false
  have hS : specialCount l ≤ l.length := List.countP_le_length isSpecial
  have : (13 * cwg isSpaceJS false l + 5 * specialCount l + 9) / 10 ≤ 2 * l.length := by
    rcases Nat.eq_zero_or_pos l.length with h | h
    · have : cwg isSpaceJS false l = 0 := by omega
      omega
    · omega
  exact_mod_cast this

/-- Appending text never decreases the token estimate. -/
theorem estimateTokens_mono (s t : List Char) : estimateTokens s ≤ estimateTokens (s ++ t) := by
  rw [estimateTokens_closed, estimateTokens_closed]
  have hW : cwg isSpaceJS false s ≤ cwg isSpaceJS false (s ++ t) := by
    rw [cwg_append]
    omega
  have hS : specialCount s ≤ specialCount (s ++ t) := by
    simp [specialCount, List.countP_append]
  have : (13 * cwg isSpaceJS false s + 5 * specialCount s + 9) / 10 ≤
      (13 * cwg isSpaceJS false (s ++ t) + 5 * specialCount (s ++ t) + 9) / 10 :=
    Nat.div_le_div_right (by omega)
  exact_mod_cast this

/-- Rational half-threshold as a natural comparison. -/
theorem q_half (m p : ℕ) : (m : ℚ) * (1 / 2) < (p : ℚ) ↔ m < 2 * p := by
  rw [mul_one_div, div_lt_iff₀ (by norm_num : (0:ℚ) < 2),
      show ((p:ℚ) * 2) = ((2 * p : ℕ) : ℚ) by push_cast; ring]
  exact Nat.cast_lt

/-- Rational six-tenths threshold as a natural comparison. -/
theorem q_sixTenths (m p : ℕ) : (m : ℚ) * (6 / 10) < (p : ℚ) ↔ 3 * m < 5 * p := by
  rw [show ((m:ℚ) * (6 / 10)) = ((3 * m : ℕ) : ℚ) / 5 by push_cast; ring,
      div_lt_iff₀ (by norm_num : (0:ℚ) < 5),
      show ((p:ℚ) * 5) = ((5 * p : ℕ) : ℚ) by push_cast; ring]
  exact Nat.cast_lt

/-- Rational seven-tenths threshold as a natural comparison. -/
theorem q_sevenTenths (m p : ℕ) : (m : ℚ) * (7 / 10) < (p : ℚ) ↔ 7 * m < 10 * p := by
  rw [show ((m:ℚ) * (7 / 10)) = ((7 * m : ℕ) : ℚ) / 10 by push_cast; ring,
      div_lt_iff₀ (by norm_num : (0:ℚ) < 10),
      show ((p:ℚ) * 10) = ((10 * p : ℕ) : ℚ) by push_cast; ring]
  exact Nat.cast_lt

/-- The single-chunk comparison of chunkText as integer arithmetic. -/
theorem q_twelveTenths (x : ℤ) (t : ℕ) :
    (x : ℚ) ≤ (t : ℚ) * (12 / 10) ↔ 5 * x ≤ 6 * (t : ℤ) := by
  rw [show ((t:ℚ) * (12 / 10)) = ((6 * (t:ℤ) : ℤ) : ℚ) / 5 by push_cast; ring,
      le_div_iff₀ (by norm_num : (0:ℚ) < 5),
      show ((x:ℚ) * 5) = ((5 * x : ℤ) : ℚ) by push_cast; ring]
  exact Int.cast_le

/-- A successful paragraph stage returns at least two. -/
theorem stageParagraph_some (text : List Char) (m r : Nat)
    (h : stageParagraph text m = some r) : 2 ≤ r := by
  unfold stageParagraph at h
  split at h
  · split at h
    · injection h with h2
      omega
    · exact absurd h (by simp)
  · exact absurd h (by simp)

/-- A successful line stage returns at least one. -/
theorem stageLine_some (text : List Char) (m r : Nat)
    (h : stageLine text m = some r) : 1 ≤ r := by
  unfold stageLine at h
  split at h
  · split at h
    · injection h with h2
      omega
    · exact absurd h (by simp)
  · exact absurd h (by simp)

/-- A successful sentence-ender stage returns at least one. -/
theorem stageEnders_some (text : List Char) (m r : Nat)
    (h : stageEnders text m = some r) : 1 ≤ r := by
  unfold stageEnders at h
  by_cases hc : 0 < enderFold text m sentenceEnders (-1)
  · rw [if_pos hc] at h
    injection h with h2
    omega
  · rw [if_neg hc] at h
    exact absurd h (by simp)

/-- A successful word-boundary stage returns at least one. -/
theorem stageSpace_some (text : List Char) (m r : Nat)
    (h : stageSpace text m = some r) : 1 ≤ r := by
  unfold stageSpace at h
  split at h
  · split at h
    · injection h with h2
      omega
    · exact absurd h (by simp)
  · exact absurd h (by simp)

/-- The break point is positive whenever maxPos is. -/
theorem findBreakPoint_pos (text : List Char) (m : Nat) (hm : 1 ≤ m) :
    1 ≤ findBreakPoint text m := by
  unfold findBreakPoint
  split
  next r h1 => have := stageParagraph_some text m r h1; omega
  next h1 =>
    split
    next r h2 => exact stageLine_some text m r h2
    next h2 =>
      split
      next r h3 => exact stageEnders_some text m r h3
      next h3 =>
        split
        next r h4 => exact stageSpace_some text m r h4
        next h4 => exact hm

/-- The loop terminates within fuel exceeding the remaining length when the
character budget is positive. -/
theorem chunkLoop_isSome (mc : Nat) (hmc : 1 ≤ mc) :
    ∀ (fuel : Nat) (rem : List Char) (num : Nat), rem.length < fuel →
      (chunkLoop mc fuel rem num).isSome := by
  intro fuel
  induction fuel with
  | zero => intro rem num h; omega
  | succ f ih =>
    intro rem num h
    by_cases h0 : rem = []
    · simp [chunkLoop, h0]
    · by_cases h1 : rem.length ≤ mc
      · simp [chunkLoop, h0, h1]
      · have hbp : 1 ≤ findBreakPoint rem mc := findBreakPoint_pos rem mc hmc
        have hpos : 0 < rem.length := List.length_pos.mpr h0
        have hlen : (trim (rem.drop (findBreakPoint rem mc))).length < f := by
          have hle := trim_length_le (rem.drop (findBreakPoint rem mc))
          rw [List.length_drop] at hle
          omega
        by_cases h2 : trim (rem.take (findBreakPoint rem mc)) = []
        · simp only [chunkLoop, if_neg h0, if_neg h1, if_pos h2]
          exact ih _ _ hlen
        · simp only [chunkLoop, if_neg h0, if_neg h1, if_neg h2]
          have := ih (trim (rem.drop (findBreakPoint rem mc))) (num + 1) hlen
          simpa using this

/-- Chunks emitted by the loop are numbered consecutively from the given
start and have nonempty text. -/
theorem chunkLoop_numbering (mc : Nat) :
    ∀ (fuel : Nat) (rem : List Char) (num : Nat) (l : List ContentChunk),
      chunkLoop mc fuel rem num = some l → numberingOk num l = true := by
  intro fuel
  induction fuel with
  | zero => intro rem num l h; exact absurd h (by simp [chunkLoop])
  | succ f ih =>
    intro rem num l h
    simp only [chunkLoop] at h
    by_cases h0 : rem = []
    · rw [if_pos h0] at h
      injection h with h2
      rw [← h2]
      simp [numberingOk]
    · rw [if_neg h0] at h
      by_cases h1 : rem.length ≤ mc
      · rw [if_pos h1] at h
        injection h with h2
        rw [← h2]
        simp [numberingOk, h0]
      · rw [if_neg h1] at h
        by_cases h2 : trim (rem.take (findBreakPoint rem mc)) = []
        · rw [if_pos h2] at h
          exact ih _ _ _ h
        · rw [if_neg h2] at h
          cases hrec : chunkLoop mc f (trim (rem.drop (findBreakPoint rem mc))) (num + 1) with
          | none => rw [hrec] at h; exact absurd h (by simp)
          | some l2 =>
            rw [hrec] at h
            simp only [Option.map_some'] at h
            injection h with h3
            rw [← h3]
            simp [numberingOk, h2]
            exact ih _ _ _ hrec

/-- Chunks emitted by the loop report the estimator of their own text. -/
theorem chunkLoop_tokens (mc : Nat) :
    ∀ (fuel : Nat) (rem : List Char) (num : Nat) (l : List ContentChunk),
      chunkLoop mc fuel rem num = some l → tokensOk l = true := by
  intro fuel
  induction fuel with
  | zero => intro rem num l h; exact absurd h (by simp [chunkLoop])
  | succ f ih =>
    intro rem num l h
    simp only [chunkLoop] at h
    by_cases h0 : rem = []
    · rw [if_pos h0] at h
      injection h with h2
      rw [← h2]
      simp [tokensOk]
    · rw [if_neg h0] at h
      by_cases h1 : rem.length ≤ mc
      · rw [if_pos h1] at h
        injection h with h2
        rw [← h2]
        simp [tokensOk]
      · rw [if_neg h1] at h
        by_cases h2 : trim (rem.take (findBreakPoint rem mc)) = []
        · rw [if_pos h2] at h
          exact ih _ _ _ h
        · rw [if_neg h2] at h
          cases hrec : chunkLoop mc f (trim (rem.drop (findBreakPoint rem mc))) (num + 1) with
          | none => rw [hrec] at h; exact absurd h (by simp)
          | some l2 =>
            rw [hrec] at h
            simp only [Option.map_some'] at h
            injection h with h3
            rw [← h3]
            simp [tokensOk]
            have := ih _ _ _ hrec
            simpa [tokensOk] using this

/-- Chunks emitted by the loop carry trimmed text, given trimmed input. -/
theorem chunkLoop_trimmed (mc : Nat) :
    ∀ (fuel : Nat) (rem : List Char) (num : Nat) (l : List ContentChunk),
      trim rem = rem → chunkLoop mc fuel rem num = some l → trimmedOk l = true := by
  intro fuel
  induction fuel with
  | zero => intro rem num l _ h; exact absurd h (by simp [chunkLoop])
  | succ f ih =>
    intro rem num l hrem h
    simp only [chunkLoop] at h
    by_cases h0 : rem = []
    · rw [if_pos h0] at h
      injection h with h2
      rw [← h2]
      simp [trimmedOk]
    · rw [if_neg h0] at h
      by_cases h1 : rem.length ≤ mc
      · rw [if_pos h1] at h
        injection h with h2
        rw [← h2]
        simp [trimmedOk, hrem]
      · rw [if_neg h1] at h
        have hrest : trim (trim (rem.drop (findBreakPoint rem mc))) =
            trim (rem.drop (findBreakPoint rem mc)) := trim_idem _
        by_cases h2 : trim (rem.take (findBreakPoint rem mc)) = []
        · rw [if_pos h2] at h
          exact ih _ _ _ hrest h
        · rw [if_neg h2] at h
          cases hrec : chunkLoop mc f (trim (rem.drop (findBreakPoint rem mc))) (num + 1) with
          | none => rw [hrec] at h; exact absurd h (by simp)
          | some l2 =>
            rw [hrec] at h
            simp only [Option.map_some'] at h
            injection h with h3
            rw [← h3]
            simp [trimmedOk, trim_idem]
            have := ih _ _ _ hrest hrec
            simpa [trimmedOk] using this

/-- The non-whitespace characters of a text are unchanged by trimming. -/
theorem nonWs_trim (l : List Char) : nonWsOf (trim l) = nonWsOf l := by
  obtain ⟨pre, suf, h, hpre, hsuf⟩ := trim_decomp l
  conv_rhs => rw [h]
  simp only [nonWsOf, List.filter_append]
  rw [filter_nil_of_all _ pre (fun c hc => by simp [hpre c hc]),
      filter_nil_of_all _ suf (fun c hc => by simp [hsuf c hc])]
  simp

/-- Splitting at an index preserves the non-whitespace characters. -/
theorem nonWs_take_drop (rem : List Char) (n : Nat) :
    nonWsOf (rem.take n) ++ nonWsOf (rem.drop n) = nonWsOf rem := by
  simp only [nonWsOf, ← List.filter_append, List.take_append_drop]

/-- The loop preserves the non-whitespace characters of the remaining text
in the concatenation of the emitted chunk texts. -/
theorem chunkLoop_filter (mc : Nat) :
    ∀ (fuel : Nat) (rem : List Char) (num : Nat) (l : List ContentChunk),
      chunkLoop mc fuel rem num = some l → nonWsOf (concatTexts l) = nonWsOf rem := by
  intro fuel
  induction fuel with
  | zero => intro rem num l h; exact absurd h (by simp [chunkLoop])
  | succ f ih =>
    intro rem num l h
    simp only [chunkLoop] at h
    by_cases h0 : rem = []
    · rw [if_pos h0] at h
      injection h with h2
      rw [← h2, h0]
      rfl
    · rw [if_neg h0] at h
      by_cases h1 : rem.length ≤ mc
      · rw [if_pos h1] at h
        injection h with h2
        rw [← h2]
        simp [concatTexts]
      · rw [if_neg h1] at h
        by_cases h2 : trim (rem.take (findBreakPoint rem mc)) = []
        · rw [if_pos h2] at h
          have hrest := ih _ _ _ h
          rw [nonWs_trim] at hrest
          have htake : nonWsOf (rem.take (findBreakPoint rem mc)) = [] := by
            rw [← nonWs_trim, h2]
            rfl
          rw [← nonWs_take_drop rem (findBreakPoint rem mc), htake, List.nil_append]
          exact hrest
        · rw [if_neg h2] at h
          cases hrec : chunkLoop mc f (trim (rem.drop (findBreakPoint rem mc))) (num + 1) with
          | none => rw [hrec] at h; exact absurd h (by simp)
          | some l2 =>
            rw [hrec] at h
            simp only [Option.map_some'] at h
            injection h with h3
            rw [← h3]
            have hrest := ih _ _ _ hrec
            rw [nonWs_trim] at hrest
            show nonWsOf (trim (rem.take (findBreakPoint rem mc)) ++ concatTexts l2) = nonWsOf rem
            simp only [nonWsOf, List.filter_append]
            have h4 : nonWsOf (trim (rem.take (findBreakPoint rem mc))) =
                nonWsOf (rem.take (findBreakPoint rem mc)) := nonWs_trim _
            simp only [nonWsOf] at h4 hrest
            rw [h4, hrest, ← List.filter_append, List.take_append_drop]

/-- A nonempty trimmed text estimates to at least one token. -/
theorem estimateTokens_trim_pos (text : List Char) (h0 : trim text ≠ []) :
    1 ≤ estimateTokens (trim text) := by
  cases htr : trim text with
  | nil => exact absurd htr h0
  | cons c tl =>
    have hc : isSpaceJS c = false := trim_head_not_space text c (by rw [htr]; rfl)
    exact estimateTokens_pos c tl hc

/-- C6: estimateTokens equals the ceiling of word count times 1.3 plus
special-character count times 0.5 over the words obtained by splitting on
whitespace runs with empty tokens discarded; it is zero on the empty
string and non-negative on every input. -/
theorem claim_C6_estimator_formula :
    ∀ l : List Char,
      estimateTokens l = estimateTokensR l ∧
      estimateTokens [] = 0 ∧ 0 ≤ estimateTokens l :=
  fun l => ⟨estimateTokens_eq_ceil l, estimateTokens_nil, estimateTokens_nonneg l⟩

/-- C7: the token estimate never decreases when text is appended. -/
theorem claim_C7_estimator_monotone :
    ∀ s t : List Char, estimateTokens s ≤ estimateTokens (s ++ t) :=
  estimateTokens_mono

/-- C2 fails as stated: for input that trims to empty the estimate is
within any budget yet chunkText returns the empty sequence, not one chunk. -/
theorem claim_C2_counterexample :
    5 * estimateTokens [] ≤ 6 * (1000 : ℤ) ∧ chunkText [] 1000 = some [] ∧
      ([] : List ContentChunk).length ≠ 1 := by
  decide

/-- C2 (amended): for input with nonempty trim whose estimate is within
1.2 times the target, chunkText returns exactly the single chunk numbered
one carrying the trimmed input and its estimate. -/
theorem claim_C2_single_chunk (text : List Char) (t : Nat) (hne : trim text ≠ [])
    (hle : 5 * estimateTokens text ≤ 6 * (t : ℤ)) :
    chunkText text t = some [⟨1, trim text, estimateTokens (trim text)⟩] := by
  have hc : 5 * estimateTokens (trim text) ≤ 6 * (t : ℤ) := by
    rw [estimateTokens_trim]
    exact hle
  simp only [chunkText]
  rw [if_neg hne, if_pos hc]

/-- Witness for the amended C2 at a concrete input. -/
theorem claim_C2_witness : chunkText ['h', 'i'] 400 = some [⟨1, ['h', 'i'], 2⟩] := by
  have h := claim_C2_single_chunk ['h', 'i'] 400 (by decide) (by decide)
  rw [h]
  decide

/-- C4: every chunk sequence returned by chunkText is numbered
consecutively from one and contains no chunk with empty text. -/
theorem claim_C4_numbering (text : List Char) (t : Nat) (l : List ContentChunk)
    (h : chunkText text t = some l) : numberingOk 1 l = true := by
  simp only [chunkText] at h
  by_cases h0 : trim text = []
  · rw [if_pos h0] at h
    injection h with h2
    rw [← h2]
    rfl
  · rw [if_neg h0] at h
    by_cases h1 : 5 * estimateTokens (trim text) ≤ 6 * (t : ℤ)
    · rw [if_pos h1] at h
      injection h with h2
      rw [← h2]
      simp [numberingOk, h0]
    · rw [if_neg h1] at h
      exact chunkLoop_numbering _ _ _ _ _ h

/-- Witness for C4 at a concrete input. -/
theorem claim_C4_witness : numberingOk 1 [⟨1, ['a', 'b'], 2⟩] = true :=
  claim_C4_numbering ['a', 'b'] 400 [⟨1, ['a', 'b'], 2⟩] (by decide)

/-- C9: every chunk returned by chunkText reports the estimator applied to
its own text. -/
theorem claim_C9_tokens (text : List Char) (t : Nat) (l : List ContentChunk)
    (h : chunkText text t = some l) : tokensOk l = true := by
  simp only [chunkText] at h
  by_cases h0 : trim text = []
  · rw [if_pos h0] at h
    injection h with h2
    rw [← h2]
    rfl
  · rw [if_neg h0] at h
    by_cases h1 : 5 * estimateTokens (trim text) ≤ 6 * (t : ℤ)
    · rw [if_pos h1] at h
      injection h with h2
      rw [← h2]
      simp [tokensOk]
    · rw [if_neg h1] at h
      exact chunkLoop_tokens _ _ _ _ _ h

/-- Witness for C9 at a concrete input. -/
theorem claim_C9_witness : tokensOk [⟨1, ['o', 'k'], 2⟩] = true :=
  claim_C9_tokens ['o', 'k'] 500 [⟨1, ['o', 'k'], 2⟩] (by decide)

/-- C10: every chunk text returned by chunkText equals its own trim. -/
theorem claim_C10_trimmed (text : List Char) (t : Nat) (l : List ContentChunk)
    (h : chunkText text t = some l) : trimmedOk l = true := by
  simp only [chunkText] at h
  by_cases h0 : trim text = []
  · rw [if_pos h0] at h
    injection h with h2
    rw [← h2]
    rfl
  · rw [if_neg h0] at h
    by_cases h1 : 5 * estimateTokens (trim text) ≤ 6 * (t : ℤ)
    · rw [if_pos h1] at h
      injection h with h2
      rw [← h2]
      simp [trimmedOk, trim_idem]
    · rw [if_neg h1] at h
      exact chunkLoop_trimmed _ _ _ _ _ (trim_idem text) h

/-- Witness for C10 at a concrete input. -/
theorem claim_C10_witness : trimmedOk [⟨1, ['h', 'm'], 2⟩] = true :=
  claim_C10_trimmed [' ', 'h', 'm'] 600 [⟨1, ['h', 'm'], 2⟩] (by decide)

/-- C1 fails as stated: at a hard cut the single-space join of the chunk
texts inserts a space inside a word, so it is not a whitespace-normalized
form of the input. -/
theorem claim_C1_counterexample :
    (chunkText ['a', 'a', 'a', 'a', 'a', 'a', 'a', 'a'] 1).map
        (fun l => joinSp (l.map ContentChunk.text)) =
      some ['a', 'a', 'a', 'a', ' ', 'a', 'a', 'a', 'a'] ∧
    normalizeWs ['a', 'a', 'a', 'a', ' ', 'a', 'a', 'a', 'a'] ≠
      normalizeWs ['a', 'a', 'a', 'a', 'a', 'a', 'a', 'a'] := by
  decide

/-- C1 (amended): concatenating the chunk texts preserves exactly the
non-whitespace characters of the input in order; only whitespace is
dropped at chunk boundaries (and a separator may be inserted there). -/
theorem claim_C1_reconstruction (text : List Char) (t : Nat) (l : List ContentChunk)
    (h : chunkText text t = some l) : nonWsOf (concatTexts l) = nonWsOf text := by
  simp only [chunkText] at h
  by_cases h0 : trim text = []
  · rw [if_pos h0] at h
    injection h with h2
    rw [← h2]
    have hx := nonWs_trim text
    rw [h0] at hx
    exact hx
  · rw [if_neg h0] at h
    by_cases h1 : 5 * estimateTokens (trim text) ≤ 6 * (t : ℤ)
    · rw [if_pos h1] at h
      injection h with h2
      rw [← h2]
      show nonWsOf (trim text ++ concatTexts []) = nonWsOf text
      rw [show concatTexts [] = [] from rfl, List.append_nil, nonWs_trim]
    · rw [if_neg h1] at h
      have hx := chunkLoop_filter _ _ _ _ _ h
      rw [nonWs_trim] at hx
      exact hx

/-- Witness for the amended C1 at a concrete input. -/
theorem claim_C1_witness :
    nonWsOf (concatTexts [⟨1, ['a', 'b'], 2⟩]) = nonWsOf ['a', 'b'] :=
  claim_C1_reconstruction ['a', 'b'] 400 [⟨1, ['a', 'b'], 2⟩] (by decide)

/-- C8: for target token budgets in the clamped range the chunker
terminates with a defined chunk list, and input that trims to empty yields
the empty sequence. -/
theorem claim_C8_terminates (text : List Char) (t : Nat) (h4 : 400 ≤ t) (h2k : t ≤ 2000) :
    (chunkText text t).isSome ∧ (trim text = [] → chunkText text t = some []) := by
  refine ⟨?_, ?_⟩
  · simp only [chunkText]
    by_cases h0 : trim text = []
    · rw [if_pos h0]
      rfl
    · rw [if_neg h0]
      by_cases h1 : 5 * estimateTokens (trim text) ≤ 6 * (t : ℤ)
      · rw [if_pos h1]
        rfl
      · rw [if_neg h1]
        have hT1 := estimateTokens_trim_pos text h0
        have hL1 : 0 < (trim text).length := List.length_pos.mpr h0
        have hTle := estimateTokens_le (trim text)
        set L : ℕ := (trim text).length with hLdef
        set T : ℤ := estimateTokens (trim text) with hTdef
        have ht400 : (400:ℤ) ≤ (t:ℤ) := by exact_mod_cast h4
        have hLq : (1:ℤ) ≤ (L:ℤ) := by exact_mod_cast hL1
        have hTtL : T ≤ (t:ℤ) * L := by nlinarith
        have htc : (1:ℤ) ≤ (t:ℤ) * L / T := by
          rw [Int.le_ediv_iff_mul_le (by omega : (0:ℤ) < T), one_mul]
          exact hTtL
        have htc1 : 1 ≤ ((t:ℤ) * L / T).toNat := by omega
        exact chunkLoop_isSome _ (by omega) _ _ _ (by omega)
  · intro h0
    simp only [chunkText]
    rw [if_pos h0]

/-- Witness for C8 at a concrete input and budget. -/
theorem claim_C8_witness :
    (chunkText ['h', 'e', 'y'] 400).isSome ∧
      (trim ['h', 'e', 'y'] = [] → chunkText ['h', 'e', 'y'] 400 = some []) :=
  claim_C8_terminates ['h', 'e', 'y'] 400 (by decide) (by decide)

/-- The source's sentence-ender fold and the amended-claim scan compute
related states: the fold carries -1 exactly when the scan carries none,
and otherwise both carry the same positive break point. -/
theorem enderFold_scan (text : List Char) (m : Nat) :
    ∀ (es : List (List Char)) (b : ℤ) (o : Option Nat),
      ((b = -1 ∧ o = none) ∨ (∃ n : Nat, 1 ≤ n ∧ b = (n : ℤ) ∧ o = some n)) →
      ((enderFold text m es b = -1 ∧ List.foldl (enderStepSpec text m) o es = none) ∨
       (∃ n : Nat, 1 ≤ n ∧ enderFold text m es b = (n : ℤ) ∧
         List.foldl (enderStepSpec text m) o es = some n)) := by
  intro es
  induction es with
  | nil =>
    intro b o h
    rcases h with ⟨hb, ho⟩ | ⟨n, hn, hb, ho⟩
    · left
      exact ⟨by simp [enderFold, hb], by simp [ho]⟩
    · right
      exact ⟨n, hn, by simp [enderFold, hb], by simp [ho]⟩
  | cons e rest ih =>
    intro b o h
    cases hl : lastIndexFrom e text m with
    | none =>
      have hstep : enderStepSpec text m o e = o := by simp [enderStepSpec, hl]
      simp only [enderFold, hl, List.foldl_cons, hstep]
      exact ih b o h
    | some p =>
      rcases h with ⟨hb, ho⟩ | ⟨n, hn, hb, ho⟩
      · subst hb
        subst ho
        by_cases hc : m < 2 * p
        · have hcond : (-1 : ℤ) < (p : ℤ) ∧ m < 2 * p := ⟨by omega, hc⟩
          simp only [enderFold, hl, if_pos hcond, List.foldl_cons, enderStepSpec, if_pos hc]
          apply ih
          right
          exact ⟨p + e.length, by omega, by push_cast; ring, rfl⟩
        · have hcond : ¬((-1 : ℤ) < (p : ℤ) ∧ m < 2 * p) := fun hx => hc hx.2
          simp only [enderFold, hl, if_neg hcond, List.foldl_cons, enderStepSpec, if_neg hc]
          apply ih
          left
          exact ⟨rfl, rfl⟩
      · subst hb
        subst ho
        by_cases hc : n < p ∧ m < 2 * p
        · have hcond : ((n : ℤ) : ℤ) < (p : ℤ) ∧ m < 2 * p := ⟨by exact_mod_cast hc.1, hc.2⟩
          simp only [enderFold, hl, if_pos hcond, List.foldl_cons, enderStepSpec, if_pos hc]
          apply ih
          right
          exact ⟨p + e.length, by omega, by push_cast; ring, rfl⟩
        · have hcond : ¬((n : ℤ) < (p : ℤ) ∧ m < 2 * p) := by
            intro hx
            exact hc ⟨by exact_mod_cast hx.1, hx.2⟩
          simp only [enderFold, hl, if_neg hcond, List.foldl_cons, enderStepSpec, if_neg hc]
          apply ih
          right
          exact ⟨n, hn, rfl, rfl⟩

/-- The sentence-ender stage of the source equals the amended-claim scan. -/
theorem stageEnders_eq_scan (text : List Char) (m : Nat) :
    stageEnders text m = enderScanSpec text m := by
  rcases enderFold_scan text m sentenceEnders (-1) none (Or.inl ⟨rfl, rfl⟩) with
    ⟨hf, hs⟩ | ⟨n, hn, hf, hs⟩
  · unfold stageEnders enderScanSpec
    rw [hf, hs]
    norm_num
  · unfold stageEnders enderScanSpec
    rw [hf, hs, if_pos (by exact_mod_cast hn : (0 : ℤ) < (n : ℤ))]
    simp

/-- The word-boundary stage of the source equals the claim version. -/
theorem space_stage_eq (text : List Char) (m : Nat) :
    (match stageSpace text m with
     | some r => r
     | none => m) = claimSpaceStage text m := by
  unfold stageSpace claimSpaceStage
  cases hl : lastIndexFrom [' '] text m with
  | none => simp
  | some p =>
    by_cases hc : 7 * m < 10 * p
    · simp [hc]
    · simp [hc]

/-- C3 fails as stated: on this input the last full stop qualifies at
position four giving break point six, the later exclamation mark qualifies
at position six, yet the source keeps six while the rightmost-wins rule of
the claim gives eight. -/
theorem claim_C3_counterexample :
    findBreakPoint ['x', 'x', 'x', 'x', '.', ' ', '!', ' ', 'y', 'y', 'y'] 7 = 6 ∧
    findBreakPointClaim ['x', 'x', 'x', 'x', '.', ' ', '!', ' ', 'y', 'y', 'y'] 7 = 8 ∧
    (6 : Nat) ≠ 8 := by
  decide

/-- C3 (amended): the break-point search follows the claimed fallback
order and thresholds, except that the sentence-ender stage scans the
enders in source order and a candidate replaces the current best only when
its position strictly exceeds the current best break point, as formalised
by findBreakPointSpec. -/
theorem claim_C3_breakpoint_order :
    ∀ (text : List Char) (m : Nat), findBreakPoint text m = findBreakPointSpec text m := by
  intro text m
  have hEnd : (match stageEnders text m with
      | some r => r
      | none =>
        match stageSpace text m with
        | some r => r
        | none => m) = specEnderStage text m := by
    unfold specEnderStage
    rw [← stageEnders_eq_scan]
    cases hs : stageEnders text m with
    | some r => simp
    | none => simpa using space_stage_eq text m
  have hLine : (match stageLine text m with
      | some r => r
      | none =>
        match stageEnders text m with
        | some r => r
        | none =>
          match stageSpace text m with
          | some r => r
          | none => m) = specLineStage text m := by
    unfold stageLine specLineStage
    cases hl : lastIndexFrom ['\n'] text m with
    | none => simpa using hEnd
    | some p =>
      by_cases hc : 3 * m < 5 * p
      · simp [hc]
      · simpa [hc] using hEnd
  unfold findBreakPoint findBreakPointSpec stageParagraph
  cases hl : lastIndexFrom ['\n', '\n'] text m with
  | none => simpa using hLine
  | some p =>
    by_cases hc : m < 2 * p
    · simp [hc]
    · simpa [hc] using hLine

/-- A text element is not a break element. -/
theorem txt_not_brk (e : ExtractedElement) (h : isTxt e = true) : isBrk e = false := by
  simp [isTxt] at h
  simp [isBrk, h]

/-- adjOk is preserved by dropping the head. -/
theorem adjOk_cons {α : Type} (r : α → α → Bool) (a : α) (l : List α)
    (h : adjOk r (a :: l) = true) : adjOk r l = true := by
  cases l with
  | nil => rfl
  | cons b t =>
    simp [adjOk] at h
    exact h.2

/-- adjOk restricts to the left part of an append. -/
theorem adjOk_append_left {α : Type} (r : α → α → Bool) :
    ∀ x y : List α, adjOk r (x ++ y) = true → adjOk r x = true := by
  intro x
  induction x with
  | nil => intro y _; rfl
  | cons a t ih =>
    intro y h
    cases t with
    | nil => rfl
    | cons b t2 =>
      simp only [List.cons_append, adjOk, Bool.and_eq_true] at h ⊢
      exact ⟨h.1, ih y h.2⟩

/-- adjOk is preserved by dropWhile. -/
theorem adjOk_dropWhile {α : Type} (p r : α → α → Bool) :
    ∀ l : List α, adjOk r l = true → adjOk r (l.dropWhile (fun a => p a a)) = true := by
  intro l
  induction l with
  | nil => intro h; exact h
  | cons a t ih =>
    intro h
    by_cases hp : p a a = true
    · simp only [List.dropWhile_cons, hp, if_true]
      exact ih (adjOk_cons r a t h)
    · simp only [List.dropWhile_cons, hp, if_false]
      exact h

/-- adjOk is preserved by rstrip. -/
theorem adjOk_rstrip {α : Type} (p : α → Bool) (r : α → α → Bool) (l : List α)
    (h : adjOk r l = true) : adjOk r (rstrip p l) = true := by
  obtain ⟨suf, hdec, -⟩ := rstrip_decomp p l
  exact adjOk_append_left r _ suf (hdec ▸ h)

/-- adjOk for a conjunction of pair conditions. -/
theorem adjOk_and {α : Type} (r s : α → α → Bool) :
    ∀ l : List α, adjOk r l = true → adjOk s l = true →
      adjOk (fun a b => r a b && s a b) l = true := by
  intro l
  induction l with
  | nil => intro _ _; rfl
  | cons a t ih =>
    intro hr hs
    cases t with
    | nil => rfl
    | cons b t2 =>
      simp only [adjOk, Bool.and_eq_true] at hr hs ⊢
      exact ⟨⟨hr.1, hs.1⟩, ih hr.2 hs.2⟩

/-- The head survives break collapsing. -/
theorem collapseBreaks_head : ∀ l : List ExtractedElement,
    (collapseBreaks l).head? = l.head? := by
  intro l
  induction l using collapseBreaks.induct with
  | case1 => simp [collapseBreaks]
  | case2 a => simp [collapseBreaks]
  | case3 a b rest hcond ih =>
    have hx : isBrk a = true ∧ isBrk b = true := by simpa using hcond
    have hstep : collapseBreaks (a :: b :: rest) = collapseBreaks (a :: rest) := by
      simp [collapseBreaks, hx.1, hx.2]
    rw [hstep, ih]
    rfl
  | case4 a b rest hcond ih =>
    have hx : ¬(isBrk a = true ∧ isBrk b = true) := by simpa using hcond
    have hstep : collapseBreaks (a :: b :: rest) = a :: collapseBreaks (b :: rest) := by
      simp [collapseBreaks, hx]
    rw [hstep]
    rfl

/-- Break collapsing leaves no two adjacent break elements. -/
theorem collapseBreaks_noBB : ∀ l : List ExtractedElement,
    adjOk noBB (collapseBreaks l) = true := by
  intro l
  induction l using collapseBreaks.induct with
  | case1 => simp [collapseBreaks, adjOk]
  | case2 a => simp [collapseBreaks, adjOk]
  | case3 a b rest hcond ih =>
    have hx : isBrk a = true ∧ isBrk b = true := by simpa using hcond
    have hstep : collapseBreaks (a :: b :: rest) = collapseBreaks (a :: rest) := by
      simp [collapseBreaks, hx.1, hx.2]
    rw [hstep]
    exact ih
  | case4 a b rest hcond ih =>
    have hx : ¬(isBrk a = true ∧ isBrk b = true) := by simpa using hcond
    have hab : (isBrk a && isBrk b) = false := by
      revert hcond
      cases isBrk a && isBrk b <;> simp
    have hstep : collapseBreaks (a :: b :: rest) = a :: collapseBreaks (b :: rest) := by
      simp [collapseBreaks, hx]
    have hh := collapseBreaks_head (b :: rest)
    cases hm : collapseBreaks (b :: rest) with
    | nil =>
      rw [hstep, hm]
      rfl
    | cons h3 t3 =>
      rw [hm] at hh ih
      simp only [List.head?_cons] at hh
      injection hh with hh2
      subst hh2
      rw [hstep, hm]
      simp only [adjOk, Bool.and_eq_true]
      exact ⟨by simp [noBB, hab], ih⟩

/-- Merging preserves whether the head is a text or break element. -/
theorem mergeTexts_head_kind : ∀ l : List ExtractedElement,
    (mergeTexts l).head?.map (fun e => (isTxt e, isBrk e)) =
      l.head?.map (fun e => (isTxt e, isBrk e)) := by
  intro l
  induction l using mergeTexts.induct with
  | case1 => simp [mergeTexts]
  | case2 a => simp [mergeTexts]
  | case3 a b rest hcond ih =>
    have hx : isTxt a = true ∧ isTxt b = true := by simpa using hcond
    have hstep : mergeTexts (a :: b :: rest) = mergeTexts (mergeElem a b :: rest) := by
      simp [mergeTexts, hx.1, hx.2]
    rw [hstep, ih]
    simp only [List.head?_cons, Option.map_some']
    have h1 : isTxt (mergeElem a b) = true := rfl
    have h2 : isBrk (mergeElem a b) = false := rfl
    rw [h1, h2, hx.1, txt_not_brk a hx.1]
  | case4 a b rest hcond ih =>
    have hx : ¬(isTxt a = true ∧ isTxt b = true) := by simpa using hcond
    have hstep : mergeTexts (a :: b :: rest) = a :: mergeTexts (b :: rest) := by
      simp [mergeTexts, hx]
    rw [hstep]
    rfl

/-- Merging leaves no two adjacent text elements. -/
theorem mergeTexts_noTT : ∀ l : List ExtractedElement,
    adjOk noTT (mergeTexts l) = true := by
  intro l
  induction l using mergeTexts.induct with
  | case1 => simp [mergeTexts, adjOk]
  | case2 a => simp [mergeTexts, adjOk]
  | case3 a b rest hcond ih =>
    have hx : isTxt a = true ∧ isTxt b = true := by simpa using hcond
    have hstep : mergeTexts (a :: b :: rest) = mergeTexts (mergeElem a b :: rest) := by
      simp [mergeTexts, hx.1, hx.2]
    rw [hstep]
    exact ih
  | case4 a b rest hcond ih =>
    have hx : ¬(isTxt a = true ∧ isTxt b = true) := by simpa using hcond
    have hab : (isTxt a && isTxt b) = false := by
      revert hcond
      cases isTxt a && isTxt b <;> simp
    have hstep : mergeTexts (a :: b :: rest) = a :: mergeTexts (b :: rest) := by
      simp [mergeTexts, hx]
    have hk := mergeTexts_head_kind (b :: rest)
    cases hm : mergeTexts (b :: rest) with
    | nil =>
      rw [hstep, hm]
      rfl
    | cons h3 t3 =>
      rw [hm] at hk ih
      simp only [List.head?_cons, Option.map_some', Option.some.injEq, Prod.mk.injEq] at hk
      rw [hstep, hm]
      simp only [adjOk, Bool.and_eq_true]
      refine ⟨?_, ih⟩
      simp [noTT, hk.1, hab]

/-- Merging text elements preserves the no-adjacent-breaks property. -/
theorem mergeTexts_noBB : ∀ l : List ExtractedElement,
    adjOk noBB l = true → adjOk noBB (mergeTexts l) = true := by
  intro l
  induction l using mergeTexts.induct with
  | case1 => intro _; simp [mergeTexts, adjOk]
  | case2 a => intro _; simp [mergeTexts, adjOk]
  | case3 a b rest hcond ih =>
    intro h
    have hx : isTxt a = true ∧ isTxt b = true := by simpa using hcond
    have hstep : mergeTexts (a :: b :: rest) = mergeTexts (mergeElem a b :: rest) := by
      simp [mergeTexts, hx.1, hx.2]
    rw [hstep]
    apply ih
    cases rest with
    | nil => rfl
    | cons c t =>
      have h1 := adjOk_cons noBB a _ h
      have h2 := adjOk_cons noBB b _ h1
      simp only [adjOk, Bool.and_eq_true]
      refine ⟨?_, by simpa [adjOk] using h2⟩
      have hmb : isBrk (mergeElem a b) = false := rfl
      simp [noBB, hmb]
  | case4 a b rest hcond ih =>
    intro h
    have hx : ¬(isTxt a = true ∧ isTxt b = true) := by simpa using hcond
    have hstep : mergeTexts (a :: b :: rest) = a :: mergeTexts (b :: rest) := by
      simp [mergeTexts, hx]
    have h1 := adjOk_cons noBB a _ h
    have h2 := ih h1
    have hk := mergeTexts_head_kind (b :: rest)
    cases hm : mergeTexts (b :: rest) with
    | nil =>
      rw [hstep, hm]
      rfl
    | cons h3 t3 =>
      rw [hm] at hk h2
      simp only [List.head?_cons, Option.map_some', Option.some.injEq, Prod.mk.injEq] at hk
      rw [hstep, hm]
      simp only [adjOk, Bool.and_eq_true]
      refine ⟨?_, h2⟩
      have hab : noBB a b = true := by
        cases rest with
        | nil => simpa [adjOk] using h
        | cons c t =>
          simp only [adjOk, Bool.and_eq_true] at h
          exact h.1
      have hfb : (isBrk a && isBrk b) = false := by
        cases hv : isBrk a && isBrk b
        · rfl
        · exfalso
          simp [noBB, hv] at hab
      simp [noBB, hk.2, hfb]

/-- An element given by head? is a member. -/
theorem head?_mem {α : Type} : ∀ (l : List α) (e : α), l.head? = some e → e ∈ l := by
  intro l e h
  cases l with
  | nil => exact absurd h (by simp)
  | cons a t =>
    injection h with h2
    rw [h2]
    exact List.mem_cons_self _ _

/-- An element given by getLast? is a member. -/
theorem getLast?_mem_own {α : Type} : ∀ (l : List α) (e : α), l.getLast? = some e → e ∈ l := by
  intro l
  induction l with
  | nil => intro e h; exact absurd h (by simp)
  | cons a t ih =>
    intro e h
    cases t with
    | nil =>
      simp at h
      rw [h]
      exact List.mem_cons_self _ _
    | cons b t2 =>
      rw [List.getLast?_cons_cons] at h
      exact List.mem_cons_of_mem a (ih e h)

/-- Stripping boundary breaks yields no leading and no trailing break. -/
theorem stripBreaks_boundary (l : List ExtractedElement) :
    noBoundaryBrk (stripBreaks l) = true := by
  unfold noBoundaryBrk stripBreaks
  rw [Bool.and_eq_true]
  constructor
  · cases hm : l.dropWhile isBrk with
    | nil => simp [rstrip]
    | cons c t =>
      have hc : isBrk c = false := dropWhile_head_not isBrk l c (by rw [hm]; rfl)
      rcases rstrip_cons_head isBrk c t with h | ⟨r, h⟩
      · rw [h]
        rfl
      · rw [h]
        simp [hc]
  · cases hg : (rstrip isBrk (l.dropWhile isBrk)).getLast? with
    | none => rfl
    | some e =>
      have := rstrip_getLast isBrk (l.dropWhile isBrk) e hg
      simp [this]

/-- Consolidation leaves no two adjacent breaks and no two adjacent texts. -/
theorem consolidate_pairOk (l : List ExtractedElement) :
    adjOk pairOk (consolidate l) = true := by
  unfold consolidate stripBreaks
  apply adjOk_rstrip
  have hdw : ∀ m : List ExtractedElement, adjOk pairOk m = true →
      adjOk pairOk (m.dropWhile isBrk) = true := by
    intro m
    induction m with
    | nil => intro h; exact h
    | cons a t ih =>
      intro h
      by_cases hp : isBrk a = true
      · simp only [List.dropWhile_cons, hp, if_true]
        exact ih (adjOk_cons pairOk a t h)
      · simp only [List.dropWhile_cons, hp, if_false]
        exact h
  apply hdw
  have hp : pairOk = fun a b => noBB a b && noTT a b := rfl
  rw [hp]
  exact adjOk_and noBB noTT _
    (mergeTexts_noBB _ (collapseBreaks_noBB (dropEmpties l)))
    (mergeTexts_noTT _)

/-- Consolidation leaves no boundary break elements. -/
theorem consolidate_boundary (l : List ExtractedElement) :
    noBoundaryBrk (consolidate l) = true :=
  stripBreaks_boundary _

/-- Lists without break or text elements satisfy the pair invariant. -/
theorem adjOk_pairOk_of_kinds : ∀ l : List ExtractedElement,
    (∀ e ∈ l, isBrk e = false ∧ isTxt e = false) → adjOk pairOk l = true := by
  intro l
  induction l with
  | nil => intro _; rfl
  | cons a t ih =>
    intro h
    cases t with
    | nil => rfl
    | cons b t2 =>
      have ha := h a (by simp)
      simp only [adjOk, Bool.and_eq_true]
      constructor
      · simp [pairOk, noBB, noTT, ha.1, ha.2]
      · exact ih (fun e he => h e (by simp [he]))

/-- Lists without break elements have no boundary break. -/
theorem noBoundary_of_kinds : ∀ l : List ExtractedElement,
    (∀ e ∈ l, isBrk e = false) → noBoundaryBrk l = true := by
  intro l h
  unfold noBoundaryBrk
  rw [Bool.and_eq_true]
  constructor
  · cases hh : l.head? with
    | none => rfl
    | some e =>
      simp [h e (head?_mem l e hh)]
  · cases hg : l.getLast? with
    | none => rfl
    | some e => simp [h e (getLast?_mem_own l e hg)]

/-- C5: the element sequence produced by the spec-modelled parseAndClean
has no two consecutive break elements, no leading or trailing break, and
no two adjacent text elements. -/
theorem claim_C5_extractor_invariant :
    ∀ (raw : List ExtractedElement) (bodyText : List Char),
      adjOk pairOk (parseAndClean raw bodyText) = true ∧
      noBoundaryBrk (parseAndClean raw bodyText) = true := by
  intro raw body
  unfold parseAndClean
  by_cases h : (consolidate raw).isEmpty
  · rw [if_pos h]
    by_cases h2 : 50 < (trim body).length
    · rw [if_pos h2]
      have hk : ∀ e ∈ fallbackParagraphs body, isBrk e = false ∧ isTxt e = false := by
        intro e he
        unfold fallbackParagraphs at he
        rw [List.mem_map] at he
        obtain ⟨s, -, rfl⟩ := he
        exact ⟨rfl, rfl⟩
      exact ⟨adjOk_pairOk_of_kinds _ hk, noBoundary_of_kinds _ (fun e he => (hk e he).1)⟩
    · rw [if_neg h2]
      exact ⟨rfl, rfl⟩
  · rw [if_neg h]
    exact ⟨consolidate_pairOk raw, consolidate_boundary raw⟩

end Chunker
